import Mathlib

/-!
Verification of the macro-expansion engine and escape decoder of the
rust-cpp-parser repository (src/lexer/pmacros.rs and src/lexer/cchar.rs).

Embedding conventions:
* Bytes are `Nat` values (< 256 in practice); `u32` arithmetic that can
  overflow is taken modulo 2^32 (release-mode wrapping semantics).
* Rust's `&mut Vec<u8>` output buffers are append-only (spec section 6:
  "Output: an append-only byte buffer"), so functions return the appended
  suffix (the delta) and claim-level wrappers append it to a given buffer.
* `Cell<bool>` in-use flags live inside the macro table; interior mutation
  through a shared `&PContext` is modelled by threading the context.
* A Rust `panic!` / `unwrap` / `unreachable!` and an out-of-bounds
  `get_unchecked` access are modelled as `Option.none`.
* Code of the repository that is not under src/ (lexer.rs scanning,
  get_arguments, MacroNode operations) is modelled from the spec; each such
  definition carries a doc comment starting with "Modelled from the spec:".
-/

namespace RustCppParser

/-- Escape kind table entries, from the `Kind` enum of cchar.rs. -/
inductive Kind where
  | NON | SEL | AAA | BBB | FFF | NNN | RRR | TTT | VVV | OCT | HEX | UNS | UNL
  deriving DecidableEq, Repr

/-- Functional transcription of the 256-entry `ECHARS` table of cchar.rs:
`SEL` at 0x22 0x27 0x3F 0x5C, `OCT` at 0x30-0x37, `UNL` at 0x55 (U),
`AAA` 0x61 (a), `BBB` 0x62 (b), `FFF` 0x66 (f), `NNN` 0x6E (n),
`RRR` 0x72 (r), `TTT` 0x74 (t), `UNS` 0x75 (u), `VVV` 0x76 (v),
`HEX` 0x78 (x), `NON` everywhere else. -/
def echars (c : Nat) : Kind :=
  if c = 34 ∨ c = 39 ∨ c = 63 ∨ c = 92 then Kind.SEL
  else if 48 ≤ c ∧ c ≤ 55 then Kind.OCT
  else if c = 85 then Kind.UNL
  else if c = 97 then Kind.AAA
  else if c = 98 then Kind.BBB
  else if c = 102 then Kind.FFF
  else if c = 110 then Kind.NNN
  else if c = 114 then Kind.RRR
  else if c = 116 then Kind.TTT
  else if c = 117 then Kind.UNS
  else if c = 118 then Kind.VVV
  else if c = 120 then Kind.HEX
  else Kind.NON

/-- The lexer state used by cchar.rs: a byte buffer with a cursor `pos` and
a stored length `len` (lexer.rs keeps `len = buf.len()`). -/
structure Lexer where
  buf : List Nat
  pos : Nat
  len : Nat
  deriving DecidableEq, Repr

/-- Modelled from the spec: `Lexer::next_char(i)` of the missing lexer.rs
reads the byte at offset `pos + i` of the buffer (all call sites in cchar.rs
guard the access with a bounds check on `len`). -/
def Lexer.next_char (st : Lexer) (i : Nat) : Nat :=
  st.buf.getD (st.pos + i) 0

/-- Modelled from the spec: `Lexer::get_hex_num` of the missing lexer.rs maps
a hex-digit byte to its value and anything else to a value `≥ 16` (cchar.rs
tests the result with `n < 16`). -/
def get_hex_num (c : Nat) : Nat :=
  if 48 ≤ c ∧ c ≤ 57 then c - 48
  else if 97 ≤ c ∧ c ≤ 102 then c - 97 + 10
  else if 65 ≤ c ∧ c ≤ 70 then c - 65 + 10
  else 16

/-- The `loop` of `Lexer::get_oct_char`, with fuel `st.len - st.pos`: each
consuming iteration advances `pos` while `pos < len`, so this fuel is exactly
enough to reproduce the unbounded Rust loop. -/
def getOctCharAux : Nat → Lexer → Nat → Lexer × Nat
  | 0, st, num => (st, num)
  | fuel + 1, st, num =>
    if st.pos < st.len then
      let c := st.next_char 0
      if 48 ≤ c ∧ c ≤ 55 then
        getOctCharAux fuel { st with pos := st.pos + 1 } ((8 * num + (c - 48)) % 4294967296)
      else (st, num)
    else (st, num)

/-- Model of `Lexer::get_oct_char` of cchar.rs (u32 accumulator taken mod 2^32). -/
def get_oct_char (st : Lexer) (start : Nat) : Lexer × Nat :=
  getOctCharAux (st.len - st.pos) st start

/-- The `for _ in 0..3` loop of `Lexer::get_hex_char`. -/
def getHexCharAux : Nat → Lexer → Nat → Lexer × Nat
  | 0, st, num => (st, num)
  | k + 1, st, num =>
    if st.pos < st.len then
      let c := st.next_char 0
      let n := get_hex_num c
      if n < 16 then
        getHexCharAux k { st with pos := st.pos + 1 } (16 * num + n)
      else (st, num)
    else (st, num)

/-- Model of `Lexer::get_hex_char` of cchar.rs. -/
def get_hex_char (st : Lexer) : Lexer × Nat :=
  getHexCharAux 3 st 0

/-- Model of `Lexer::get_universal_short` of cchar.rs: all-or-nothing on 4 bytes. -/
def get_universal_short (st : Lexer) : Lexer × Nat :=
  let rem := st.len - st.pos
  if 4 ≤ rem then
    ({ st with pos := st.pos + 4 },
      0x1000 * get_hex_num (st.next_char 0) + 0x100 * get_hex_num (st.next_char 1)
        + 0x10 * get_hex_num (st.next_char 2) + get_hex_num (st.next_char 3))
  else (st, 0)

/-- Model of `Lexer::get_universal_long` of cchar.rs: all-or-nothing on 8 bytes. -/
def get_universal_long (st : Lexer) : Lexer × Nat :=
  let rem := st.len - st.pos
  if 8 ≤ rem then
    ({ st with pos := st.pos + 8 },
      0x10000000 * get_hex_num (st.next_char 0) + 0x1000000 * get_hex_num (st.next_char 1)
        + 0x100000 * get_hex_num (st.next_char 2) + 0x10000 * get_hex_num (st.next_char 3)
        + 0x1000 * get_hex_num (st.next_char 4) + 0x100 * get_hex_num (st.next_char 5)
        + 0x10 * get_hex_num (st.next_char 6) + get_hex_num (st.next_char 7))
  else (st, 0)

/-- Model of `Lexer::get_escape` of cchar.rs; the source's local bindings `c` (the
byte after the backslash, whose consumption advances `pos`) and `kind` (the
ECHARS entry) are inlined. The `Kind::NON` arm of the source is
`unreachable!()`, a panic, modelled as `none`. -/
def get_escape (st : Lexer) : Option (Lexer × Nat) :=
  if st.pos < st.len then
    match echars (st.next_char 0) with
    | Kind.SEL => some ({ st with pos := st.pos + 1 }, st.next_char 0)
    | Kind.AAA => some ({ st with pos := st.pos + 1 }, 0x07)
    | Kind.BBB => some ({ st with pos := st.pos + 1 }, 0x08)
    | Kind.FFF => some ({ st with pos := st.pos + 1 }, 0x0C)
    | Kind.NNN => some ({ st with pos := st.pos + 1 }, 0x0A)
    | Kind.RRR => some ({ st with pos := st.pos + 1 }, 0x0D)
    | Kind.TTT => some ({ st with pos := st.pos + 1 }, 0x09)
    | Kind.VVV => some ({ st with pos := st.pos + 1 }, 0x0B)
    | Kind.OCT => some (get_oct_char { st with pos := st.pos + 1 } (st.next_char 0 - 48))
    | Kind.HEX => some (get_hex_char { st with pos := st.pos + 1 })
    | Kind.UNS => some (get_universal_short { st with pos := st.pos + 1 })
    | Kind.UNL => some (get_universal_long { st with pos := st.pos + 1 })
    | Kind.NON => none
  else some (st, 0)

/-- Model of `IfState` of pmacros.rs. -/
inductive IfState where
  | Eval | Skip | SkipAndSwitch
  deriving DecidableEq, Repr

/-- Model of `Action` of pmacros.rs. -/
inductive Action where
  | Arg (n : Nat)
  | Concat (n : Nat)
  | Stringify (n : Nat)
  | Chunk (n : Nat)
  deriving DecidableEq, Repr

/-- Model of `MacroObject` of pmacros.rs; `in_use` is a `Cell<bool>` in the source. -/
structure MacroObject where
  out : List Nat
  has_id : Bool
  in_use : Bool
  deriving DecidableEq, Repr

/-- Model of `MacroFunction` of pmacros.rs. -/
structure MacroFunction where
  out : List Nat
  actions : List Action
  n_args : Nat
  in_use : Bool
  va_args : Option Nat
  deriving DecidableEq, Repr

/-- Model of `Macro` of pmacros.rs. -/
inductive Macro where
  | Object (m : MacroObject)
  | Function (m : MacroFunction)
  deriving DecidableEq, Repr

/-- Model of `MacroType` of pmacros.rs (the borrowed `&MacroObject` is carried by
value in the embedding). -/
inductive MacroType where
  | None
  | Object (m : MacroObject)
  | Function (p : Nat × Option Nat)
  deriving DecidableEq, Repr

/-- Model of `PContext` of pmacros.rs. Macro names (Rust `String` keys of the
`HashMap`) are byte lists; the map is an association list whose first
matching entry is the binding, and the `Vec` if-stack keeps its top at the
head of the list. -/
structure PContext where
  macros : List (List Nat × Macro)
  if_stack : List IfState
  deriving DecidableEq, Repr

/-- The in-use flag of either macro variant. -/
def Macro.in_use : Macro → Bool
  | Macro.Object m => m.in_use
  | Macro.Function m => m.in_use

/-- Write the in-use flag of either macro variant (a `Cell::set`). -/
def Macro.setFlag : Macro → Bool → Macro
  | Macro.Object m, b => Macro.Object { m with in_use := b }
  | Macro.Function m, b => Macro.Function { m with in_use := b }

/-- Model of `HashMap::get`: first binding of a key in the association list. -/
def lookupM : List (List Nat × Macro) → List Nat → Option Macro
  | [], _ => none
  | (k, m) :: t, n => if k = n then some m else lookupM t n

/-- Set the in-use `Cell` of the table entry bound to a name (the first
matching binding, as in a `HashMap`). -/
def setInUseL : List (List Nat × Macro) → List Nat → Bool → List (List Nat × Macro)
  | [], _, _ => []
  | (k, m) :: t, n, b => if k = n then (k, m.setFlag b) :: t else (k, m) :: setInUseL t n b

/-- Context-level flag write. -/
def PContext.setInUse (ctx : PContext) (name : List Nat) (b : Bool) : PContext :=
  { ctx with macros := setInUseL ctx.macros name b }

/-- The in-use flag of the binding of a name, if any. -/
def inUseAt (ctx : PContext) (name : List Nat) : Option Bool :=
  (lookupM ctx.macros name).map Macro.in_use

/-- Model of `PContext::add_if` (a `Vec::push`; the stack top is the list head). -/
def PContext.add_if (ctx : PContext) (s : IfState) : PContext :=
  { ctx with if_stack := s :: ctx.if_stack }

/-- Model of `PContext::rm_if` (`Vec::pop` discards its result; empty is a no-op). -/
def PContext.rm_if (ctx : PContext) : PContext :=
  { ctx with if_stack := ctx.if_stack.tail }

/-- Model of `PContext::if_state` (`Vec::last`). -/
def PContext.if_state (ctx : PContext) : Option IfState :=
  ctx.if_stack.head?

/-- Model of `PContext::if_change` of pmacros.rs: `*self.if_stack.last_mut().unwrap()
= state`. The `unwrap` panics on an empty stack, modelled as `none`. -/
def PContext.if_change (ctx : PContext) (s : IfState) : Option PContext :=
  match ctx.if_stack with
  | [] => none
  | _ :: t => some { ctx with if_stack := s :: t }

/-- Model of `PContext::add_function` (`HashMap::insert` overwrites). -/
def PContext.add_function (ctx : PContext) (name : List Nat) (mac : MacroFunction) : PContext :=
  { ctx with macros :=
      (name, Macro.Function mac) :: ctx.macros.filter (fun q => decide (q.1 ≠ name)) }

/-- Model of `PContext::add_object` (`HashMap::insert` overwrites). -/
def PContext.add_object (ctx : PContext) (name : List Nat) (mac : MacroObject) : PContext :=
  { ctx with macros :=
      (name, Macro.Object mac) :: ctx.macros.filter (fun q => decide (q.1 ≠ name)) }

/-- Model of `PContext::undef` (`HashMap::remove`). -/
def PContext.undef (ctx : PContext) (name : List Nat) : PContext :=
  { ctx with macros := ctx.macros.filter (fun q => decide (q.1 ≠ name)) }

/-- Model of `PContext::defined` (`HashMap::contains_key`). -/
def PContext.defined (ctx : PContext) (name : List Nat) : Bool :=
  (lookupM ctx.macros name).isSome

/-- Model of `PContext::get` of pmacros.rs: an in-use macro (either variant) is
reported as absent. -/
def PContext.get (ctx : PContext) (name : List Nat) : Option Macro :=
  match lookupM ctx.macros name with
  | some (Macro.Object m) => if m.in_use then none else some (Macro.Object m)
  | some (Macro.Function m) => if m.in_use then none else some (Macro.Function m)
  | none => none

/-- Model of `MacroFunction::len` of pmacros.rs. -/
def MacroFunction.length (mf : MacroFunction) : Nat := mf.n_args

/-- Model of `PContext::get_type` of pmacros.rs. -/
def PContext.get_type (ctx : PContext) (name : List Nat) : MacroType :=
  match ctx.get name with
  | some (Macro.Object mac) => MacroType.Object mac
  | some (Macro.Function mac) => MacroType.Function (mac.length, mac.va_args)
  | none => MacroType.None

/-- Modelled from the spec: identifier continuation byte of the missing
lexer.rs tokenizer (letters, underscore, digits). -/
def isIdChar (c : Nat) : Bool :=
  decide ((65 ≤ c ∧ c ≤ 90) ∨ (97 ≤ c ∧ c ≤ 122) ∨ c = 95 ∨ (48 ≤ c ∧ c ≤ 57))

/-- Modelled from the spec: identifier start byte (letters, underscore). -/
def isIdStart (c : Nat) : Bool :=
  decide ((65 ≤ c ∧ c ≤ 90) ∨ (97 ≤ c ∧ c ≤ 122) ∨ c = 95)

/-- Modelled from the spec: `MacroNode::make_string` stringification (the
`#` operator) backslash-escapes an internal double quote, backslash or
newline (spec section 4.2). -/
def escByte (b : Nat) : List Nat :=
  if b = 34 ∨ b = 92 ∨ b = 10 then [92, b] else [b]

/-- Modelled from the spec: the quoted string literal produced by
`MacroNode::make_string` for an argument's raw spelling. -/
def stringifyBytes (a : List Nat) : List Nat :=
  34 :: (a.map escByte).flatten ++ [34]

/-- Modelled from the spec: the balanced, comma-separated argument scan of
the missing `Lexer::get_arguments`. Scans bytes after the opening
parenthesis, splitting argument groups at top-level commas, tracking nested
parenthesis depth, and failing (`none`) at end of input (unterminated list).
Returns the number of consumed bytes and the raw argument groups. -/
def parseArgsAux : List Nat → Nat → List Nat → List (List Nat) → Option (Nat × List (List Nat))
  | [], _, _, _ => none
  | c :: t, depth, cur, acc =>
    if c = 41 then
      if depth = 0 then some (1, acc ++ [cur.reverse])
      else (parseArgsAux t (depth - 1) (c :: cur) acc).map (fun r => (r.1 + 1, r.2))
    else if c = 40 then
      (parseArgsAux t (depth + 1) (c :: cur) acc).map (fun r => (r.1 + 1, r.2))
    else if c = 44 ∧ depth = 0 then
      (parseArgsAux t depth [] (acc ++ [cur.reverse])).map (fun r => (r.1 + 1, r.2))
    else
      (parseArgsAux t depth (c :: cur) acc).map (fun r => (r.1 + 1, r.2))

/-- Modelled from the spec: `Lexer::get_arguments (n_args, va_args)` of the
missing lexer.rs. Requires an immediate `(`, collects the balanced
comma-separated groups, then checks arity: a non-variadic macro must receive
exactly `n_args` groups; a variadic macro keeps its fixed groups and joins
the remaining ones with commas into the trailing variadic group (an empty
group when the invocation supplies exactly the fixed parameters). Failure
(unterminated list or wrong arity) is `none`, as signalled by the `Option`
return of the source. Returns the consumed byte count and the groups. -/
def getArguments (input : List Nat) (nArgs : Nat) (va : Option Nat) :
    Option (Nat × List (List Nat)) :=
  if input.head? = some 40 then
    (parseArgsAux input.tail 0 [] []).bind (fun g =>
      if va.isSome then
        if nArgs ≤ g.2.length then
          some (g.1 + 1, List.take (nArgs - 1) g.2
            ++ [List.intercalate [44] (List.drop (nArgs - 1) g.2)])
        else if g.2.length + 1 = nArgs then some (g.1 + 1, g.2 ++ [[]])
        else none
      else if g.2.length = nArgs then some (g.1 + 1, g.2) else none)
  else none

/-- The number of argument groups an invocation of a function macro
produces: `n_args` when non-variadic, and at least one group (the variadic
tail) otherwise. -/
def argcG (nArgs : Nat) (va : Option Nat) : Nat :=
  match va with
  | none => nArgs
  | some _ => max nArgs 1

/-- The definition-time action invariant of a function macro: `Chunk`
offsets are monotonically non-decreasing (tracked by the cursor `op`) and
bounded by the replacement buffer length, and every argument index is below
the argument-vector length. The `[]` case covers the trailing
`out.get_unchecked(out_pos..)` read. -/
def actionsWF : List Action → Nat → Nat → Nat → Bool
  | [], op, bufLen, _ => decide (op ≤ bufLen)
  | Action.Arg i :: rest, op, bufLen, argc => decide (i < argc) && actionsWF rest op bufLen argc
  | Action.Concat i :: rest, op, bufLen, argc => decide (i < argc) && actionsWF rest op bufLen argc
  | Action.Stringify i :: rest, op, bufLen, argc => decide (i < argc) && actionsWF rest op bufLen argc
  | Action.Chunk p :: rest, op, bufLen, argc =>
    decide (op ≤ p) && decide (p ≤ bufLen) && actionsWF rest p bufLen argc

/-- A function macro is well formed when its action list satisfies the
invariant for the argument vector its invocations produce. -/
def MacroFunction.wf (mf : MacroFunction) : Bool :=
  actionsWF mf.actions 0 mf.out.length (argcG mf.n_args mf.va_args)

/-- Well-formedness of a macro table entry. -/
def macroWFb : Macro → Bool
  | Macro.Object _ => true
  | Macro.Function mf => mf.wf

/-- Well-formedness of every function macro of a context. -/
def PContext.wfCtx (ctx : PContext) : Bool :=
  ctx.macros.all (fun p => macroWFb p.2)

/-- The action-replay loop of `MacroFunction::eval_parsed_args`
(pmacros.rs lines 137-154), parameterized by the expansion function `scan`
used for `MacroNode::eval_nodes` on `Arg` substitutions. `op` is the
chunk cursor `out_pos`. The two `get_unchecked` slice reads of the source
are undefined behaviour when out of bounds, modelled as `none`; in-bounds
they copy `buf[op..p]` and `buf[op..]`. -/
def runActs (scan : List Nat → PContext → Option (PContext × List Nat)) :
    List Action → List (List Nat) → List Nat → Nat → PContext → Option (PContext × List Nat)
  | [], _, buf, op, ctx =>
    if op ≤ buf.length then some (ctx, List.drop op buf) else none
  | Action.Arg i :: rest, args, buf, op, ctx =>
    args[i]?.bind (fun a => (scan a ctx).bind (fun s =>
      (runActs scan rest args buf op s.1).map (fun r => (r.1, s.2 ++ r.2))))
  | Action.Concat i :: rest, args, buf, op, ctx =>
    args[i]?.bind (fun a =>
      (runActs scan rest args buf op ctx).map (fun r => (r.1, a ++ r.2)))
  | Action.Stringify i :: rest, args, buf, op, ctx =>
    args[i]?.bind (fun a =>
      (runActs scan rest args buf op ctx).map (fun r => (r.1, stringifyBytes a ++ r.2)))
  | Action.Chunk p :: rest, args, buf, op, ctx =>
    if op ≤ p ∧ p ≤ buf.length then
      (runActs scan rest args buf p ctx).map
        (fun r => (r.1, List.take (p - op) (List.drop op buf) ++ r.2))
    else none

/-- Model of `MacroObject::eval` of pmacros.rs, parameterized by the rescanning
function `scan` standing for `Lexer::new(&self.out)` +
`lexer.macro_final_eval(out, context)`. `name` locates this macro's
`in_use` cell inside the shared context. -/
def objectEvalF (scan : List Nat → PContext → Option (PContext × List Nat))
    (name : List Nat) (mo : MacroObject) (ctx : PContext) : Option (PContext × List Nat) :=
  if mo.has_id then
    (scan mo.out (ctx.setInUse name true)).map (fun s => (s.1.setInUse name false, s.2))
  else some (ctx, mo.out)

/-- Model of `MacroFunction::eval_parsed_args` of pmacros.rs, parameterized by the
rescanning function `scan`: replay the action program into the intermediate
buffer, set the in-use cell, rescan the assembled buffer, clear the cell. -/
def epaF (scan : List Nat → PContext → Option (PContext × List Nat))
    (name : List Nat) (mf : MacroFunction) (args : List (List Nat)) (ctx : PContext) :
    Option (PContext × List Nat) :=
  (runActs scan mf.actions args mf.out 0 ctx).bind (fun s =>
    (scan s.2 (s.1.setInUse name true)).map (fun s2 => (s2.1.setInUse name false, s2.2)))

/-- Model of `PContext::eval` of pmacros.rs, parameterized by the rescanning
function. The result carries the context, the number of bytes the argument
scanner consumed from the token stream `rest`, the appended output delta and
the boolean success flag. -/
def pcEvalF (scan : List Nat → PContext → Option (PContext × List Nat))
    (ctx : PContext) (name rest : List Nat) : Option (PContext × Nat × List Nat × Bool) :=
  match ctx.get name with
  | none => some (ctx, 0, [], false)
  | some (Macro.Object mo) =>
    (objectEvalF scan name mo ctx).map (fun s => (s.1, 0, s.2, true))
  | some (Macro.Function mf) =>
    match getArguments rest mf.n_args mf.va_args with
    | none => some (ctx, 0, [], false)
    | some (n, args) => (epaF scan name mf args ctx).map (fun s => (s.1, n, s.2, true))

/-- Modelled from the spec: the remainder of a double-quoted string literal
(after its opening quote), consumed verbatim by the tokenizer up to and
including the closing quote, honouring backslash escapes. Returns the
consumed bytes and the rest of the input. -/
def takeStrL : List Nat → List Nat × List Nat
  | [] => ([], [])
  | 92 :: b :: t => let r := takeStrL t; (92 :: b :: r.1, r.2)
  | 34 :: t => ([34], t)
  | b :: t => let r := takeStrL t; (b :: r.1, r.2)

/-- Modelled from the spec: one pass of `Lexer::macro_final_eval` of the
missing lexer.rs, parameterized by the single-invocation evaluator `ev`
(which is `PContext::eval`). Scans the byte buffer; at an identifier it asks
the evaluator, appending the expansion on success and, on failure, emitting
the identifier as plain text (spec section 4.1/7: an unknown or painted
macro is "indistinguishable from not a macro"). `bnd` bounds the number of
scanning steps; the driver passes the input length, which suffices because
every step consumes at least one byte. -/
def scanBufA (ev : PContext → List Nat → List Nat → Option (PContext × Nat × List Nat × Bool)) :
    Nat → List Nat → PContext → Option (PContext × List Nat)
  | _, [], ctx => some (ctx, [])
  | 0, input, ctx => some (ctx, input)
  | bnd + 1, c :: rest, ctx =>
    if c = 34 then
      (scanBufA ev bnd (takeStrL rest).2 ctx).map
        (fun r => (r.1, 34 :: (takeStrL rest).1 ++ r.2))
    else if isIdStart c then
      (ev ctx (List.takeWhile isIdChar (c :: rest)) (List.dropWhile isIdChar (c :: rest))).bind
        (fun v =>
          if v.2.2.2 then
            (scanBufA ev bnd (List.drop v.2.1 (List.dropWhile isIdChar (c :: rest))) v.1).map
              (fun r => (r.1, v.2.2.1 ++ r.2))
          else
            (scanBufA ev bnd (List.dropWhile isIdChar (c :: rest)) v.1).map
              (fun r => (r.1, List.takeWhile isIdChar (c :: rest) ++ r.2)))
    else
      (scanBufA ev bnd rest ctx).map (fun r => (r.1, c :: r.2))

/-- The tied knot: rescanning with an expansion-depth fuel. At fuel 0 the
buffer is copied verbatim (no further expansion); at fuel `k+1` one scanning
pass runs, each macro invocation evaluating with fuel `k` for its own
rescanning. Every theorem below holds for every fuel value. -/
def scanBuf : Nat → List Nat → PContext → Option (PContext × List Nat)
  | 0, input, ctx => some (ctx, input)
  | fuel + 1, input, ctx =>
    scanBufA (fun c nm rs => pcEvalF (scanBuf fuel) c nm rs) input.length input ctx

/-- Model of `MacroObject::eval` at expansion-depth fuel `fuel`. -/
def MacroObject.eval (fuel : Nat) (name : List Nat) (mo : MacroObject) (ctx : PContext) :
    Option (PContext × List Nat) :=
  objectEvalF (scanBuf fuel) name mo ctx

/-- Model of `MacroFunction::eval_parsed_args` at expansion-depth fuel `fuel`. -/
def MacroFunction.eval_parsed_args (fuel : Nat) (name : List Nat) (mf : MacroFunction)
    (args : List (List Nat)) (ctx : PContext) : Option (PContext × List Nat) :=
  epaF (scanBuf fuel) name mf args ctx

/-- Model of `PContext::eval` at expansion-depth fuel `fuel`. -/
def PContext.eval (fuel : Nat) (ctx : PContext) (name rest : List Nat) :
    Option (PContext × Nat × List Nat × Bool) :=
  pcEvalF (scanBuf fuel) ctx name rest

/-- Model of `PContext::eval` with the `&mut Vec<u8>` output buffer made explicit:
the delta is appended to `out`. -/
def PContext.evalOut (fuel : Nat) (ctx : PContext) (name rest out : List Nat) :
    Option (PContext × Nat × List Nat × Bool) :=
  (ctx.eval fuel name rest).map (fun r => (r.1, r.2.1, out ++ r.2.2.1, r.2.2.2))

/-! Concrete fixtures used by witnesses and counterexamples. `mfW` is the
function macro of `#define F(x) x+x` (buffer "+", actions Arg 0, Chunk 1,
Arg 0); `ctxW` binds object macro M -> "x" and function macro F; `ctxT`
binds M to an object macro whose in-use cell is set. -/

def mfW : MacroFunction := ⟨[43], [Action.Arg 0, Action.Chunk 1, Action.Arg 0], 1, false, none⟩

def ctxW : PContext :=
  ⟨[([77], Macro.Object ⟨[120], false, false⟩), ([70], Macro.Function mfW)], []⟩

def moT : MacroObject := ⟨[], false, true⟩

def ctxT : PContext := ⟨[([77], Macro.Object moT)], []⟩

/-- Iterated `MacroObject::eval`, appending into an explicit output buffer. -/
def objIter (fuel : Nat) (name : List Nat) (mo : MacroObject) :
    Nat → PContext → List Nat → Option (PContext × List Nat)
  | 0, ctx, out => some (ctx, out)
  | k + 1, ctx, out =>
    (MacroObject.eval fuel name mo ctx).bind (fun r => objIter fuel name mo k r.1 (out ++ r.2))

/-- Octal-digit test of the `get_oct_char` loop condition. -/
def octB : Nat → Bool := fun d => decide (48 ≤ d) && decide (d ≤ 55)

/-- One accumulation step of `get_oct_char` (u32 wrapping). -/
def octStep : Nat → Nat → Nat := fun n d => (8 * n + (d - 48)) % 4294967296

/-- Hex-digit test of the `get_hex_char` loop condition. -/
def hexB : Nat → Bool := fun d => decide (get_hex_num d < 16)

/-- One accumulation step of `get_hex_char`. -/
def hexStep : Nat → Nat → Nat := fun n d => 16 * n + get_hex_num d

/-! Helper lemmas about flags and lookups. -/

theorem in_use_setFlag (m : Macro) (b : Bool) : (m.setFlag b).in_use = b := by
  cases m <;> rfl

theorem setFlag_eq_self (m : Macro) (b : Bool) (h : m.in_use = b) : m.setFlag b = m := by
  cases m with
  | Object mo => cases mo; simp only [Macro.in_use] at h; simp [Macro.setFlag, h]
  | Function mf => cases mf; simp only [Macro.in_use] at h; simp [Macro.setFlag, h]

theorem macroWFb_setFlag (m : Macro) (b : Bool) : macroWFb (m.setFlag b) = macroWFb m := by
  cases m with
  | Object mo => rfl
  | Function mf => cases mf; rfl

theorem lookupM_setInUseL (l : List (List Nat × Macro)) (n : List Nat) (b : Bool) :
    lookupM (setInUseL l n b) n = (lookupM l n).map (fun m => m.setFlag b) := by
  induction l with
  | nil => rfl
  | cons p t ih =>
    obtain ⟨k, m⟩ := p
    by_cases h : k = n
    · simp [setInUseL, lookupM, h]
    · simp [setInUseL, lookupM, h, ih]

theorem setInUseL_eq_self (l : List (List Nat × Macro)) (n : List Nat) (b : Bool) (m : Macro)
    (hl : lookupM l n = some m) (hu : m.in_use = b) : setInUseL l n b = l := by
  induction l with
  | nil => simp [lookupM] at hl
  | cons p t ih =>
    obtain ⟨k, mm⟩ := p
    by_cases h : k = n
    · simp only [lookupM, h, if_pos] at hl
      cases hl
      simp [setInUseL, h, setFlag_eq_self m b hu]
    · simp only [lookupM, h, if_neg, ite_false] at hl
      simp [setInUseL, h, ih hl]

theorem setInUseL_setInUseL (l : List (List Nat × Macro)) (n : List Nat) (b c : Bool) :
    setInUseL (setInUseL l n b) n c = setInUseL l n c := by
  induction l with
  | nil => rfl
  | cons p t ih =>
    obtain ⟨k, m⟩ := p
    by_cases h : k = n
    · cases m <;> simp [setInUseL, h, Macro.setFlag]
    · simp [setInUseL, h, ih]

theorem all_setInUseL (l : List (List Nat × Macro)) (n : List Nat) (b : Bool)
    (p : Macro → Bool) (hp : ∀ m c, p (m.setFlag c) = p m) :
    (setInUseL l n b).all (fun q => p q.2) = l.all (fun q => p q.2) := by
  induction l with
  | nil => rfl
  | cons q t ih =>
    obtain ⟨k, m⟩ := q
    by_cases h : k = n
    · simp [setInUseL, h, hp]
    · simp [setInUseL, h, ih]

theorem wfCtx_setInUse (ctx : PContext) (n : List Nat) (b : Bool) :
    (ctx.setInUse n b).wfCtx = ctx.wfCtx := by
  unfold PContext.wfCtx PContext.setInUse
  exact all_setInUseL ctx.macros n b macroWFb macroWFb_setFlag

theorem setInUse_setInUse (ctx : PContext) (n : List Nat) (b c : Bool) :
    (ctx.setInUse n b).setInUse n c = ctx.setInUse n c := by
  unfold PContext.setInUse
  simp [setInUseL_setInUseL]

theorem setInUse_eq_self (ctx : PContext) (n : List Nat) (b : Bool) (m : Macro)
    (hl : lookupM ctx.macros n = some m) (hu : m.in_use = b) : ctx.setInUse n b = ctx := by
  unfold PContext.setInUse
  rw [setInUseL_eq_self ctx.macros n b m hl hu]

theorem lookupM_all (l : List (List Nat × Macro)) (p : Macro → Bool) (n : List Nat) (m : Macro)
    (ha : l.all (fun q => p q.2) = true) (hl : lookupM l n = some m) : p m = true := by
  induction l with
  | nil => simp [lookupM] at hl
  | cons q t ih =>
    obtain ⟨k, mm⟩ := q
    simp only [List.all_cons, Bool.and_eq_true] at ha
    by_cases h : k = n
    · simp [lookupM, h] at hl
      subst hl
      exact ha.1
    · simp [lookupM, h] at hl
      exact ih ha.2 hl

theorem get_eq_some (ctx : PContext) (n : List Nat) (m : Macro) (h : ctx.get n = some m) :
    lookupM ctx.macros n = some m ∧ m.in_use = false := by
  unfold PContext.get at h
  rcases hl : lookupM ctx.macros n with _ | mm
  · rw [hl] at h; exact absurd h (by simp)
  · rw [hl] at h
    cases mm with
    | Object mo =>
      by_cases hu : mo.in_use = true
      · simp [hu] at h
      · simp [hu] at h
        subst h
        exact ⟨rfl, by simpa [Macro.in_use] using hu⟩
    | Function mf =>
      by_cases hu : mf.in_use = true
      · simp [hu] at h
      · simp [hu] at h
        subst h
        exact ⟨rfl, by simpa [Macro.in_use] using hu⟩

theorem get_none_of_in_use (ctx : PContext) (n : List Nat) (m : Macro)
    (hl : lookupM ctx.macros n = some m) (hu : m.in_use = true) : ctx.get n = none := by
  unfold PContext.get
  rw [hl]
  cases m with
  | Object mo => simp only [Macro.in_use] at hu; simp [hu]
  | Function mf => simp only [Macro.in_use] at hu; simp [hu]

theorem get_none_of_absent (ctx : PContext) (n : List Nat)
    (hl : lookupM ctx.macros n = none) : ctx.get n = none := by
  unfold PContext.get
  rw [hl]

theorem get_type_none (ctx : PContext) (n : List Nat) (h : ctx.get n = none) :
    ctx.get_type n = MacroType.None := by
  unfold PContext.get_type
  rw [h]

/-! Context preservation: every completed call hands the macro table back
with every in-use cell exactly as it found it. -/

theorem scanBufA_nil (ev : PContext → List Nat → List Nat → Option (PContext × Nat × List Nat × Bool))
    (bnd : Nat) (ctx : PContext) : scanBufA ev bnd [] ctx = some (ctx, []) := by
  cases bnd <;> rfl

theorem scanBufA_zero (ev : PContext → List Nat → List Nat → Option (PContext × Nat × List Nat × Bool))
    (input : List Nat) (ctx : PContext) : scanBufA ev 0 input ctx = some (ctx, input) := by
  cases input <;> rfl

theorem runActs_ctx (scan : List Nat → PContext → Option (PContext × List Nat))
    (hsc : ∀ a c r, scan a c = some r → r.1 = c) :
    ∀ acts args buf op ctx r, runActs scan acts args buf op ctx = some r → r.1 = ctx := by
  intro acts
  induction acts with
  | nil =>
    intro args buf op ctx r h
    unfold runActs at h
    by_cases hb : op ≤ buf.length
    · rw [if_pos hb] at h; cases h; rfl
    · rw [if_neg hb] at h; cases h
  | cons a rest ih =>
    intro args buf op ctx r h
    cases a with
    | Arg i =>
      unfold runActs at h
      rw [Option.bind_eq_some] at h
      obtain ⟨av, hg, h⟩ := h
      rw [Option.bind_eq_some] at h
      obtain ⟨s1, hs, h⟩ := h
      rw [Option.map_eq_some'] at h
      obtain ⟨r2, hr, h⟩ := h
      subst h
      dsimp only
      rw [ih args buf op s1.1 r2 hr, hsc av ctx s1 hs]
    | Concat i =>
      unfold runActs at h
      rw [Option.bind_eq_some] at h
      obtain ⟨av, hg, h⟩ := h
      rw [Option.map_eq_some'] at h
      obtain ⟨r2, hr, h⟩ := h
      subst h
      dsimp only
      exact ih args buf op ctx r2 hr
    | Stringify i =>
      unfold runActs at h
      rw [Option.bind_eq_some] at h
      obtain ⟨av, hg, h⟩ := h
      rw [Option.map_eq_some'] at h
      obtain ⟨r2, hr, h⟩ := h
      subst h
      dsimp only
      exact ih args buf op ctx r2 hr
    | Chunk p =>
      unfold runActs at h
      by_cases hb : op ≤ p ∧ p ≤ buf.length
      · rw [if_pos hb, Option.map_eq_some'] at h
        obtain ⟨r2, hr, h⟩ := h
        subst h
        dsimp only
        exact ih args buf p ctx r2 hr
      · rw [if_neg hb] at h; cases h

theorem objectEvalF_ctx (scan : List Nat → PContext → Option (PContext × List Nat))
    (hsc : ∀ a c r, scan a c = some r → r.1 = c)
    (name : List Nat) (mo : MacroObject) (ctx : PContext) (r : PContext × List Nat)
    (h : objectEvalF scan name mo ctx = some r) :
    r.1 = if mo.has_id then ctx.setInUse name false else ctx := by
  unfold objectEvalF at h
  by_cases hid : mo.has_id = true
  · rw [if_pos hid, Option.map_eq_some'] at h
    obtain ⟨s1, hs, h⟩ := h
    subst h
    dsimp only
    rw [if_pos hid, hsc mo.out (ctx.setInUse name true) s1 hs, setInUse_setInUse]
  · rw [if_neg hid] at h
    cases h
    rw [if_neg hid]

theorem epaF_ctx (scan : List Nat → PContext → Option (PContext × List Nat))
    (hsc : ∀ a c r, scan a c = some r → r.1 = c)
    (name : List Nat) (mf : MacroFunction) (args : List (List Nat)) (ctx : PContext)
    (r : PContext × List Nat) (h : epaF scan name mf args ctx = some r) :
    r.1 = ctx.setInUse name false := by
  unfold epaF at h
  rw [Option.bind_eq_some] at h
  obtain ⟨s1, hr, h⟩ := h
  rw [Option.map_eq_some'] at h
  obtain ⟨s2, hs, h⟩ := h
  subst h
  dsimp only
  rw [hsc s1.2 (s1.1.setInUse name true) s2 hs,
    runActs_ctx scan hsc mf.actions args mf.out 0 ctx s1 hr, setInUse_setInUse]

theorem pcEvalF_ctx (scan : List Nat → PContext → Option (PContext × List Nat))
    (hsc : ∀ a c r, scan a c = some r → r.1 = c)
    (ctx : PContext) (name rest : List Nat) (r : PContext × Nat × List Nat × Bool)
    (h : pcEvalF scan ctx name rest = some r) : r.1 = ctx := by
  unfold pcEvalF at h
  split at h
  · cases h; rfl
  · rename_i mo hg
    have hin := get_eq_some ctx name (Macro.Object mo) hg
    rw [Option.map_eq_some'] at h
    obtain ⟨s1, ho, h⟩ := h
    subst h
    dsimp only
    have heq := objectEvalF_ctx scan hsc name mo ctx s1 ho
    by_cases hid : mo.has_id = true
    · rw [if_pos hid] at heq
      rw [heq]
      exact setInUse_eq_self ctx name false (Macro.Object mo) hin.1 hin.2
    · rw [if_neg hid] at heq
      exact heq
  · rename_i mf hg
    have hin := get_eq_some ctx name (Macro.Function mf) hg
    split at h
    · cases h; rfl
    · rename_i n args ha
      rw [Option.map_eq_some'] at h
      obtain ⟨s1, he, h⟩ := h
      subst h
      dsimp only
      have heq := epaF_ctx scan hsc name mf args ctx s1 he
      rw [heq]
      exact setInUse_eq_self ctx name false (Macro.Function mf) hin.1 hin.2

theorem scanBufA_ctx (ev : PContext → List Nat → List Nat → Option (PContext × Nat × List Nat × Bool))
    (hev : ∀ c nm rs r, ev c nm rs = some r → r.1 = c) :
    ∀ bnd input ctx r, scanBufA ev bnd input ctx = some r → r.1 = ctx := by
  intro bnd
  induction bnd with
  | zero =>
    intro input ctx r h
    rw [scanBufA_zero] at h
    cases h; rfl
  | succ bnd ih =>
    intro input ctx r h
    cases input with
    | nil =>
      rw [scanBufA_nil] at h
      cases h; rfl
    | cons c rest =>
      unfold scanBufA at h
      by_cases hq : c = 34
      · rw [if_pos hq, Option.map_eq_some'] at h
        obtain ⟨r2, hr, h⟩ := h
        subst h
        dsimp only
        exact ih _ ctx r2 hr
      · rw [if_neg hq] at h
        by_cases hid : isIdStart c = true
        · rw [if_pos hid, Option.bind_eq_some] at h
          obtain ⟨v, hv, h⟩ := h
          have hc1 := hev ctx _ _ v hv
          by_cases hok : v.2.2.2 = true
          · rw [if_pos hok, Option.map_eq_some'] at h
            obtain ⟨r2, hr, h⟩ := h
            subst h
            dsimp only
            rw [ih _ v.1 r2 hr, hc1]
          · rw [if_neg hok, Option.map_eq_some'] at h
            obtain ⟨r2, hr, h⟩ := h
            subst h
            dsimp only
            rw [ih _ v.1 r2 hr, hc1]
        · rw [if_neg hid, Option.map_eq_some'] at h
          obtain ⟨r2, hr, h⟩ := h
          subst h
          dsimp only
          exact ih rest ctx r2 hr

theorem scanBuf_ctx :
    ∀ fuel input ctx r, scanBuf fuel input ctx = some r → r.1 = ctx := by
  intro fuel
  induction fuel with
  | zero =>
    intro input ctx r h
    cases h; rfl
  | succ fuel ih =>
    intro input ctx r h
    unfold scanBuf at h
    exact scanBufA_ctx _
      (fun c nm rs rr h2 => pcEvalF_ctx (scanBuf fuel) (fun a cc q hh => ih a cc q hh) c nm rs rr h2)
      input.length input ctx r h

theorem pcEval_ctx (fuel : Nat) (ctx : PContext) (name rest : List Nat)
    (r : PContext × Nat × List Nat × Bool) (h : ctx.eval fuel name rest = some r) : r.1 = ctx :=
  pcEvalF_ctx (scanBuf fuel) (fun a cc q hh => scanBuf_ctx fuel a cc q hh) ctx name rest r h

/-! Totality: under the definition-time action invariant no buffer access
goes out of bounds and no evaluation path reaches undefined behaviour. -/

theorem getArguments_len (input : List Nat) (nArgs : Nat) (va : Option Nat) (cnt : Nat)
    (args : List (List Nat)) (h : getArguments input nArgs va = some (cnt, args)) :
    args.length = argcG nArgs va := by
  unfold getArguments at h
  by_cases h0 : input.head? = some 40
  · rw [if_pos h0, Option.bind_eq_some] at h
    obtain ⟨g, hp, h⟩ := h
    rcases va with _ | vi
    · rw [if_neg (by simp)] at h
      by_cases h1 : g.2.length = nArgs
      · rw [if_pos h1] at h
        cases h
        simpa [argcG] using h1
      · rw [if_neg h1] at h
        cases h
    · rw [if_pos (by simp)] at h
      by_cases h1 : nArgs ≤ g.2.length
      · rw [if_pos h1] at h
        cases h
        simp only [argcG, List.length_append, List.length_take, List.length_singleton]
        omega
      · rw [if_neg h1] at h
        by_cases h2 : g.2.length + 1 = nArgs
        · rw [if_pos h2] at h
          cases h
          simp only [argcG, List.length_append, List.length_singleton]
          omega
        · rw [if_neg h2] at h
          cases h
  · rw [if_neg h0] at h
    cases h

theorem runActs_some (scan : List Nat → PContext → Option (PContext × List Nat))
    (hc : ∀ a c r, scan a c = some r → r.1 = c)
    (hs : ∀ a c, c.wfCtx = true → (scan a c).isSome = true) :
    ∀ acts args buf op ctx, ctx.wfCtx = true →
      actionsWF acts op buf.length args.length = true →
      (runActs scan acts args buf op ctx).isSome = true := by
  intro acts
  induction acts with
  | nil =>
    intro args buf op ctx hctx hwf
    simp only [actionsWF, decide_eq_true_eq] at hwf
    unfold runActs
    rw [if_pos hwf]
    rfl
  | cons a rest ih =>
    intro args buf op ctx hctx hwf
    cases a with
    | Arg i =>
      simp only [actionsWF, Bool.and_eq_true, decide_eq_true_eq] at hwf
      obtain ⟨hi, hrest⟩ := hwf
      unfold runActs
      rw [List.getElem?_eq_getElem hi, Option.some_bind]
      have h1 := hs (args[i]) ctx hctx
      rcases hso : scan (args[i]) ctx with _ | s1
      · rw [hso] at h1; cases h1
      · rw [Option.some_bind, Option.isSome_map']
        have h2 := hc (args[i]) ctx s1 hso
        exact ih args buf op s1.1 (by rw [h2]; exact hctx) hrest
    | Concat i =>
      simp only [actionsWF, Bool.and_eq_true, decide_eq_true_eq] at hwf
      obtain ⟨hi, hrest⟩ := hwf
      unfold runActs
      rw [List.getElem?_eq_getElem hi, Option.some_bind, Option.isSome_map']
      exact ih args buf op ctx hctx hrest
    | Stringify i =>
      simp only [actionsWF, Bool.and_eq_true, decide_eq_true_eq] at hwf
      obtain ⟨hi, hrest⟩ := hwf
      unfold runActs
      rw [List.getElem?_eq_getElem hi, Option.some_bind, Option.isSome_map']
      exact ih args buf op ctx hctx hrest
    | Chunk p =>
      simp only [actionsWF, Bool.and_eq_true, decide_eq_true_eq] at hwf
      obtain ⟨⟨h1, h2⟩, hrest⟩ := hwf
      unfold runActs
      rw [if_pos (And.intro h1 h2), Option.isSome_map']
      exact ih args buf p ctx hctx hrest

theorem objectEvalF_some (scan : List Nat → PContext → Option (PContext × List Nat))
    (hs : ∀ a c, c.wfCtx = true → (scan a c).isSome = true)
    (name : List Nat) (mo : MacroObject) (ctx : PContext) (hctx : ctx.wfCtx = true) :
    (objectEvalF scan name mo ctx).isSome = true := by
  unfold objectEvalF
  by_cases hid : mo.has_id = true
  · rw [if_pos hid, Option.isSome_map']
    exact hs mo.out (ctx.setInUse name true) (by rw [wfCtx_setInUse]; exact hctx)
  · rw [if_neg hid]
    rfl

theorem epaF_some (scan : List Nat → PContext → Option (PContext × List Nat))
    (hc : ∀ a c r, scan a c = some r → r.1 = c)
    (hs : ∀ a c, c.wfCtx = true → (scan a c).isSome = true)
    (name : List Nat) (mf : MacroFunction) (args : List (List Nat)) (ctx : PContext)
    (hctx : ctx.wfCtx = true)
    (hwf : actionsWF mf.actions 0 mf.out.length args.length = true) :
    (epaF scan name mf args ctx).isSome = true := by
  unfold epaF
  have h1 := runActs_some scan hc hs mf.actions args mf.out 0 ctx hctx hwf
  rcases hr : runActs scan mf.actions args mf.out 0 ctx with _ | s1
  · rw [hr] at h1; cases h1
  · rw [Option.some_bind, Option.isSome_map']
    have h2 := runActs_ctx scan hc mf.actions args mf.out 0 ctx s1 hr
    exact hs s1.2 (s1.1.setInUse name true)
      (by rw [h2, wfCtx_setInUse]; exact hctx)

theorem pcEvalF_some (scan : List Nat → PContext → Option (PContext × List Nat))
    (hc : ∀ a c r, scan a c = some r → r.1 = c)
    (hs : ∀ a c, c.wfCtx = true → (scan a c).isSome = true)
    (ctx : PContext) (name rest : List Nat) (hctx : ctx.wfCtx = true) :
    (pcEvalF scan ctx name rest).isSome = true := by
  unfold pcEvalF
  split
  · rfl
  · rename_i mo hg
    rw [Option.isSome_map']
    exact objectEvalF_some scan hs name mo ctx hctx
  · rename_i mf hg
    have hin := get_eq_some ctx name (Macro.Function mf) hg
    have hwfm : macroWFb (Macro.Function mf) = true :=
      lookupM_all ctx.macros macroWFb name (Macro.Function mf) hctx hin.1
    split
    · rfl
    · rename_i n args ha
      rw [Option.isSome_map']
      have hlen := getArguments_len rest mf.n_args mf.va_args n args ha
      refine epaF_some scan hc hs name mf args ctx hctx ?_
      rw [hlen]
      exact hwfm

theorem scanBufA_some (ev : PContext → List Nat → List Nat → Option (PContext × Nat × List Nat × Bool))
    (hev_ctx : ∀ c nm rs r, ev c nm rs = some r → r.1 = c)
    (hev_some : ∀ c nm rs, c.wfCtx = true → (ev c nm rs).isSome = true) :
    ∀ bnd input ctx, ctx.wfCtx = true → (scanBufA ev bnd input ctx).isSome = true := by
  intro bnd
  induction bnd with
  | zero =>
    intro input ctx hctx
    rw [scanBufA_zero]
    rfl
  | succ bnd ih =>
    intro input ctx hctx
    cases input with
    | nil =>
      rw [scanBufA_nil]
      rfl
    | cons c rest =>
      unfold scanBufA
      by_cases hq : c = 34
      · rw [if_pos hq, Option.isSome_map']
        exact ih _ ctx hctx
      · rw [if_neg hq]
        by_cases hid : isIdStart c = true
        · rw [if_pos hid]
          have h1 := hev_some ctx (List.takeWhile isIdChar (c :: rest))
            (List.dropWhile isIdChar (c :: rest)) hctx
          rcases hv : ev ctx (List.takeWhile isIdChar (c :: rest))
              (List.dropWhile isIdChar (c :: rest)) with _ | v
          · rw [hv] at h1; cases h1
          · rw [Option.some_bind]
            have hc1 := hev_ctx ctx _ _ v hv
            by_cases hok : v.2.2.2 = true
            · rw [if_pos hok, Option.isSome_map']
              exact ih _ v.1 (by rw [hc1]; exact hctx)
            · rw [if_neg hok, Option.isSome_map']
              exact ih _ v.1 (by rw [hc1]; exact hctx)
        · rw [if_neg hid, Option.isSome_map']
          exact ih rest ctx hctx

theorem scanBuf_some :
    ∀ fuel input ctx, PContext.wfCtx ctx = true → (scanBuf fuel input ctx).isSome = true := by
  intro fuel
  induction fuel with
  | zero =>
    intro input ctx hctx
    rfl
  | succ fuel ih =>
    intro input ctx hctx
    unfold scanBuf
    exact scanBufA_some _
      (fun c nm rs rr h2 => pcEvalF_ctx (scanBuf fuel) (fun a cc q hh => scanBuf_ctx fuel a cc q hh) c nm rs rr h2)
      (fun c nm rs hw => pcEvalF_some (scanBuf fuel) (fun a cc q hh => scanBuf_ctx fuel a cc q hh)
        (fun a cc hw2 => ih a cc hw2) c nm rs hw)
      input.length input ctx hctx

theorem pcEval_some (fuel : Nat) (ctx : PContext) (name rest : List Nat)
    (hctx : ctx.wfCtx = true) : (ctx.eval fuel name rest).isSome = true :=
  pcEvalF_some (scanBuf fuel) (fun a cc q hh => scanBuf_ctx fuel a cc q hh)
    (fun a cc hw => scanBuf_some fuel a cc hw) ctx name rest hctx

theorem inUseAt_setInUse (ctx : PContext) (name : List Nat) (b : Bool) (m : Macro)
    (hl : lookupM ctx.macros name = some m) : inUseAt (ctx.setInUse name b) name = some b := by
  unfold inUseAt PContext.setInUse
  dsimp only
  rw [lookupM_setInUseL, hl]
  simp [in_use_setFlag]

/-- C3: for every macro (object or function) whose in_use flag is true,
`PContext::get` returns `None` and `PContext::get_type` returns
`MacroType::None`, exactly as for a name with no definition at all, so a
caller cannot distinguish an in-use macro from an undefined one. -/
theorem claim_C3_in_use_indistinguishable :
    (∀ (ctx : PContext) (name : List Nat) (m : Macro),
      lookupM ctx.macros name = some m → m.in_use = true →
        ctx.get name = none ∧ ctx.get_type name = MacroType.None)
    ∧ (∀ (ctx : PContext) (name : List Nat),
      lookupM ctx.macros name = none →
        ctx.get name = none ∧ ctx.get_type name = MacroType.None) := by
  constructor
  · intro ctx name m hl hu
    have h := get_none_of_in_use ctx name m hl hu
    exact ⟨h, get_type_none ctx name h⟩
  · intro ctx name hl
    have h := get_none_of_absent ctx name hl
    exact ⟨h, get_type_none ctx name h⟩

/-- Witness for C3 at a concrete in-use macro. -/
theorem claim_C3_witness :
    ctxT.get [77] = none ∧ ctxT.get_type [77] = MacroType.None :=
  claim_C3_in_use_indistinguishable.1 ctxT [77] (Macro.Object moT) rfl rfl

/-- C10: `PContext::defined` still reports an in-use macro's name as
defined even though `get`, `get_type` and `eval` all treat the same name as
absent, so the two lookup paths disagree during an expansion. -/
theorem claim_C10_defined_disagrees (ctx : PContext) (name : List Nat) (m : Macro)
    (fuel : Nat) (rest : List Nat)
    (hl : lookupM ctx.macros name = some m) (hu : m.in_use = true) :
    ctx.defined name = true ∧ ctx.get name = none ∧ ctx.get_type name = MacroType.None ∧
      ctx.eval fuel name rest = some (ctx, 0, [], false) := by
  have hg := get_none_of_in_use ctx name m hl hu
  refine ⟨?_, hg, get_type_none ctx name hg, ?_⟩
  · unfold PContext.defined
    rw [hl]
    rfl
  · unfold PContext.eval pcEvalF
    rw [hg]

/-- Witness for C10 at a concrete in-use macro. -/
theorem claim_C10_witness :
    ctxT.defined [77] = true ∧ ctxT.get [77] = none ∧ ctxT.get_type [77] = MacroType.None ∧
      ctxT.eval 3 [77] [] = some (ctxT, 0, [], false) :=
  claim_C10_defined_disagrees ctxT [77] (Macro.Object moT) 3 [] rfl rfl

/-- C4: for every object macro whose has_id (self_referential) flag is
false, `MacroObject::eval` appends exactly the stored replacement bytes with
no rescanning and leaves the context (hence the macro) untouched, and
expanding it any number of times appends that same byte sequence each
time. -/
theorem claim_C4_object_verbatim (fuel : Nat) (name : List Nat) (mo : MacroObject)
    (ctx : PContext) (h : mo.has_id = false) :
    MacroObject.eval fuel name mo ctx = some (ctx, mo.out) ∧
    ∀ k out, objIter fuel name mo k ctx out
      = some (ctx, out ++ (List.replicate k mo.out).flatten) := by
  have h1 : MacroObject.eval fuel name mo ctx = some (ctx, mo.out) := by
    unfold MacroObject.eval objectEvalF
    rw [if_neg (by simp [h])]
  refine ⟨h1, ?_⟩
  intro k
  induction k with
  | zero =>
    intro out
    simp [objIter]
  | succ k ih =>
    intro out
    unfold objIter
    rw [h1, Option.some_bind, ih (out ++ mo.out)]
    simp [List.replicate_succ, List.append_assoc]

/-- Witness for C4: the non-self-referential object macro M -> "x" expands
verbatim, three consecutive expansions appending "xxx". -/
theorem claim_C4_witness :
    MacroObject.eval 2 [77] ⟨[120], false, false⟩ ctxW = some (ctxW, [120]) ∧
      objIter 2 [77] ⟨[120], false, false⟩ 3 ctxW [] = some (ctxW, [120, 120, 120]) := by
  have h := claim_C4_object_verbatim 2 [77] ⟨[120], false, false⟩ ctxW rfl
  refine ⟨h.1, ?_⟩
  have h2 := h.2 3 []
  simpa using h2

theorem pcEvalF_none (scan : List Nat → PContext → Option (PContext × List Nat))
    (ctx : PContext) (name rest : List Nat) (hg : ctx.get name = none) :
    pcEvalF scan ctx name rest = some (ctx, 0, [], false) := by
  unfold pcEvalF
  split
  · rfl
  · rename_i mo heq
    rw [heq] at hg
    cases hg
  · rename_i mf heq
    rw [heq] at hg
    cases hg

theorem pcEvalF_object (scan : List Nat → PContext → Option (PContext × List Nat))
    (ctx : PContext) (name rest : List Nat) (mo : MacroObject) (s1 : PContext × List Nat)
    (hg : ctx.get name = some (Macro.Object mo))
    (ho : objectEvalF scan name mo ctx = some s1) :
    pcEvalF scan ctx name rest = some (s1.1, 0, s1.2, true) := by
  unfold pcEvalF
  split
  · rename_i heq
    rw [heq] at hg
    cases hg
  · rename_i mo2 heq
    rw [heq] at hg
    cases hg
    rw [ho]
    rfl
  · rename_i mf heq
    rw [heq] at hg
    cases hg

theorem pcEvalF_args_fail (scan : List Nat → PContext → Option (PContext × List Nat))
    (ctx : PContext) (name rest : List Nat) (mf : MacroFunction)
    (hg : ctx.get name = some (Macro.Function mf))
    (ha : getArguments rest mf.n_args mf.va_args = none) :
    pcEvalF scan ctx name rest = some (ctx, 0, [], false) := by
  unfold pcEvalF
  split
  · rfl
  · rename_i mo heq
    rw [heq] at hg
    cases hg
  · rename_i mf2 heq
    rw [heq] at hg
    cases hg
    split
    · rfl
    · rename_i n2 args2 heq2
      rw [heq2] at ha
      cases ha

theorem pcEvalF_function (scan : List Nat → PContext → Option (PContext × List Nat))
    (ctx : PContext) (name rest : List Nat) (mf : MacroFunction) (n : Nat)
    (args : List (List Nat)) (s1 : PContext × List Nat)
    (hg : ctx.get name = some (Macro.Function mf))
    (ha : getArguments rest mf.n_args mf.va_args = some (n, args))
    (he : epaF scan name mf args ctx = some s1) :
    pcEvalF scan ctx name rest = some (s1.1, n, s1.2, true) := by
  unfold pcEvalF
  split
  · rename_i heq
    rw [heq] at hg
    cases hg
  · rename_i mo heq
    rw [heq] at hg
    cases hg
  · rename_i mf2 heq
    rw [heq] at hg
    cases hg
    split
    · rename_i heq2
      rw [heq2] at ha
      cases ha
    · rename_i n2 args2 heq2
      rw [heq2] at ha
      cases ha
      rw [he]
      rfl

/-- C1: for every macro name, lexer state and output buffer (over a context
whose function macros satisfy the definition-time action invariant),
`PContext::eval` returns false and leaves the output buffer byte-for-byte
unchanged whenever the name is not in the macro table or the named macro's
in_use flag is true (both reported by `get` as absence), or the macro is a
function macro and argument collection fails; in every other case it
appends the expansion to the output and returns true. -/
theorem claim_C1_eval_contract (fuel : Nat) (ctx : PContext) (name rest out : List Nat)
    (hwf : ctx.wfCtx = true) :
    (ctx.get name = none → ctx.evalOut fuel name rest out = some (ctx, 0, out, false))
    ∧ (∀ mf : MacroFunction, ctx.get name = some (Macro.Function mf) →
        getArguments rest mf.n_args mf.va_args = none →
        ctx.evalOut fuel name rest out = some (ctx, 0, out, false))
    ∧ (∀ m : Macro, ctx.get name = some m →
        (∀ mf : MacroFunction, m = Macro.Function mf →
          (getArguments rest mf.n_args mf.va_args).isSome = true) →
        ∃ ctx1 n d, ctx.evalOut fuel name rest out = some (ctx1, n, out ++ d, true)) := by
  refine ⟨?_, ?_, ?_⟩
  · intro hg
    unfold PContext.evalOut PContext.eval
    rw [pcEvalF_none (scanBuf fuel) ctx name rest hg]
    simp
  · intro mf hg ha
    unfold PContext.evalOut PContext.eval
    rw [pcEvalF_args_fail (scanBuf fuel) ctx name rest mf hg ha]
    simp
  · intro m hg hargs
    unfold PContext.evalOut PContext.eval
    cases m with
    | Object mo =>
      have hs := objectEvalF_some (scanBuf fuel)
        (fun a c hw => scanBuf_some fuel a c hw) name mo ctx hwf
      rcases ho : objectEvalF (scanBuf fuel) name mo ctx with _ | s1
      · rw [ho] at hs
        cases hs
      · rw [pcEvalF_object (scanBuf fuel) ctx name rest mo s1 hg ho]
        exact ⟨s1.1, 0, s1.2, rfl⟩
    | Function mf =>
      rcases ha : getArguments rest mf.n_args mf.va_args with _ | na
      · have := hargs mf rfl
        rw [ha] at this
        cases this
      · obtain ⟨n, args⟩ := na
        have hin := get_eq_some ctx name (Macro.Function mf) hg
        have hwfm : macroWFb (Macro.Function mf) = true :=
          lookupM_all ctx.macros macroWFb name (Macro.Function mf) hwf hin.1
        have hlen := getArguments_len rest mf.n_args mf.va_args n args ha
        have hs := epaF_some (scanBuf fuel) (fun a c r h => scanBuf_ctx fuel a c r h)
          (fun a c hw => scanBuf_some fuel a c hw) name mf args ctx hwf
          (by rw [hlen]; exact hwfm)
        rcases he : epaF (scanBuf fuel) name mf args ctx with _ | s1
        · rw [he] at hs
          cases hs
        · rw [pcEvalF_function (scanBuf fuel) ctx name rest mf n args s1 hg ha he]
          exact ⟨s1.1, n, s1.2, rfl⟩

/-- Witness for C1 at concrete inputs: an unknown name fails leaving the
buffer unchanged, the function macro F with an unterminated argument list
fails leaving the buffer unchanged, and the object macro M succeeds
appending its expansion. -/
theorem claim_C1_witness :
    ctxW.evalOut 3 [78] [] [99] = some (ctxW, 0, [99], false) ∧
    ctxW.evalOut 3 [70] [40] [99] = some (ctxW, 0, [99], false) ∧
    ∃ ctx1 n d, ctxW.evalOut 3 [77] [] [99] = some (ctx1, n, [99] ++ d, true) := by
  refine ⟨?_, ?_, ?_⟩
  · exact (claim_C1_eval_contract 3 ctxW [78] [] [99] (by decide)).1 (by decide)
  · exact (claim_C1_eval_contract 3 ctxW [70] [40] [99] (by decide)).2.1 mfW (by decide) (by decide)
  · exact (claim_C1_eval_contract 3 ctxW [77] [] [99] (by decide)).2.2
      (Macro.Object ⟨[120], false, false⟩) (by decide)
      (fun mf h => by cases h)

/-- C2 as stated is refuted at a concrete input: `MacroObject::eval` of a
non-self-referential object macro whose in_use cell is already set returns
without ever touching the cell, so after the completed call the flag is
still true, contradicting "after every completed call to MacroObject::eval
... the macro's in_use flag is false". -/
theorem claim_C2_cex :
    MacroObject.eval 0 [77] moT ctxT = some (ctxT, []) ∧ inUseAt ctxT [77] = some true :=
  ⟨rfl, rfl⟩

/-- C2 (amended): after every completed call to
`MacroFunction::eval_parsed_args` (on a name bound in the table) the
macro's in_use flag is false; after every completed call to
`MacroObject::eval` the flag is false provided it was false on entry or the
macro is self-referential (has_id); consequently, starting from a context
in which every macro's in_use flag is false, every completed call to
`PContext::eval` (whether it returns true or false) leaves every in_use
flag false again. -/
theorem claim_C2_in_use_restored :
    (∀ (fuel : Nat) (name : List Nat) (mf : MacroFunction) (args : List (List Nat))
        (ctx ctx1 : PContext) (d : List Nat), (lookupM ctx.macros name).isSome = true →
      MacroFunction.eval_parsed_args fuel name mf args ctx = some (ctx1, d) →
      inUseAt ctx1 name = some false)
    ∧ (∀ (fuel : Nat) (name : List Nat) (mo : MacroObject) (ctx ctx1 : PContext) (d : List Nat),
      (inUseAt ctx name = some false ∨
        ((lookupM ctx.macros name).isSome = true ∧ mo.has_id = true)) →
      MacroObject.eval fuel name mo ctx = some (ctx1, d) →
      inUseAt ctx1 name = some false)
    ∧ (∀ (fuel : Nat) (ctx : PContext) (name rest : List Nat)
        (r : PContext × Nat × List Nat × Bool),
      ctx.macros.all (fun p => !p.2.in_use) = true →
      ctx.eval fuel name rest = some r →
      r.1.macros.all (fun p => !p.2.in_use) = true) := by
  refine ⟨?_, ?_, ?_⟩
  · intro fuel name mf args ctx ctx1 d hl h
    obtain ⟨m, hm⟩ := Option.isSome_iff_exists.mp hl
    have he := epaF_ctx (scanBuf fuel) (fun a c r hh => scanBuf_ctx fuel a c r hh)
      name mf args ctx (ctx1, d) h
    simp only at he
    rw [he]
    exact inUseAt_setInUse ctx name false m hm
  · intro fuel name mo ctx ctx1 d hpre h
    have he := objectEvalF_ctx (scanBuf fuel) (fun a c r hh => scanBuf_ctx fuel a c r hh)
      name mo ctx (ctx1, d) h
    simp only at he
    by_cases hid : mo.has_id = true
    · rw [if_pos hid] at he
      rw [he]
      rcases hpre with hf | ⟨hl, _⟩
      · unfold inUseAt at hf
        obtain ⟨m, hm, _⟩ := Option.map_eq_some'.mp hf
        exact inUseAt_setInUse ctx name false m hm
      · obtain ⟨m, hm⟩ := Option.isSome_iff_exists.mp hl
        exact inUseAt_setInUse ctx name false m hm
    · rw [if_neg hid] at he
      rw [he]
      rcases hpre with hf | ⟨hl, hid2⟩
      · exact hf
      · exact absurd hid2 hid
  · intro fuel ctx name rest r hall h
    rw [pcEval_ctx fuel ctx name rest r h]
    exact hall

/-- Witness for C2 (amended) at concrete inputs: evaluating the function
macro F and the self-referential-free object macro M of `ctxW`, and a full
`PContext::eval` call, all leave the flags false. -/
theorem claim_C2_witness :
    inUseAt ctxW [70] = some false ∧ inUseAt ctxW [77] = some false ∧
      ctxW.macros.all (fun p => !p.2.in_use) = true := by
  refine ⟨?_, ?_, ?_⟩
  · exact claim_C2_in_use_restored.1 2 [70] mfW [[121]] ctxW ctxW [121, 43, 121]
      (by decide) (by decide)
  · exact claim_C2_in_use_restored.2.1 2 [77] ⟨[120], false, false⟩ ctxW ctxW [120]
      (Or.inl (by decide)) (by decide)
  · exact claim_C2_in_use_restored.2.2 2 ctxW [77] [] (ctxW, 0, [120], true)
      (by decide) (by decide)

/-- C6: for every function macro satisfying the definition-time action
invariant (monotone, bounded chunk offsets; argument indices below the
supplied argument-vector length) over a well-formed context, every buffer
access in `MacroFunction::eval_parsed_args` — including the two unchecked
slice reads of the replacement buffer — is in bounds: evaluation never
reaches the undefined-behaviour case of the model. -/
theorem claim_C6_bounds (fuel : Nat) (name : List Nat) (mf : MacroFunction)
    (args : List (List Nat)) (ctx : PContext) (hctx : ctx.wfCtx = true)
    (hwf : actionsWF mf.actions 0 mf.out.length args.length = true) :
    (MacroFunction.eval_parsed_args fuel name mf args ctx).isSome = true :=
  epaF_some (scanBuf fuel) (fun a c r h => scanBuf_ctx fuel a c r h)
    (fun a c hw => scanBuf_some fuel a c hw) name mf args ctx hctx hwf

/-- Witness for C6 at the concrete well-formed macro F of `ctxW`. -/
theorem claim_C6_witness :
    (MacroFunction.eval_parsed_args 2 [70] mfW [[121]] ctxW).isSome = true :=
  claim_C6_bounds 2 [70] mfW [[121]] ctxW (by decide) (by decide)

theorem getOctCharAux_spec (buf : List Nat) :
    ∀ (fuel pos num : Nat), buf.length - pos = fuel →
      getOctCharAux fuel ⟨buf, pos, buf.length⟩ num =
        (⟨buf, pos + ((buf.drop pos).takeWhile octB).length, buf.length⟩,
         ((buf.drop pos).takeWhile octB).foldl octStep num) := by
  intro fuel
  induction fuel with
  | zero =>
    intro pos num hf
    have hle : buf.length ≤ pos := by omega
    rw [List.drop_eq_nil_of_le hle]
    unfold getOctCharAux
    simp
  | succ fuel ih =>
    intro pos num hf
    have hlt : pos < buf.length := by omega
    have hgd : Lexer.next_char ⟨buf, pos, buf.length⟩ 0 = buf[pos] := by
      simp only [Lexer.next_char, Nat.add_zero]
      exact List.getD_eq_getElem buf 0 hlt
    unfold getOctCharAux
    rw [if_pos hlt, hgd, List.drop_eq_getElem_cons hlt]
    by_cases hoct : 48 ≤ buf[pos] ∧ buf[pos] ≤ 55
    · rw [if_pos hoct,
        List.takeWhile_cons_of_pos (by simp [octB, hoct.1, hoct.2]),
        ih (pos + 1) ((8 * num + (buf[pos] - 48)) % 4294967296) (by omega)]
      simp only [List.foldl_cons, List.length_cons, octStep, Prod.mk.injEq, Lexer.mk.injEq,
        true_and, and_true]
      omega
    · rw [if_neg hoct,
        List.takeWhile_cons_of_neg
          (by simp only [octB, Bool.and_eq_true, decide_eq_true_eq]; exact hoct)]
      simp

theorem get_oct_char_spec (st : Lexer) (start : Nat) (hl : st.len = st.buf.length) :
    get_oct_char st start =
      (⟨st.buf, st.pos + ((st.buf.drop st.pos).takeWhile octB).length, st.len⟩,
       ((st.buf.drop st.pos).takeWhile octB).foldl octStep start) := by
  obtain ⟨buf, pos, len⟩ := st
  dsimp only at hl ⊢
  subst hl
  exact getOctCharAux_spec buf (buf.length - pos) pos start rfl

theorem getHexCharAux_spec (buf : List Nat) :
    ∀ (k pos num : Nat),
      getHexCharAux k ⟨buf, pos, buf.length⟩ num =
        (⟨buf, pos + (((buf.drop pos).takeWhile hexB).take k).length, buf.length⟩,
         (((buf.drop pos).takeWhile hexB).take k).foldl hexStep num) := by
  intro k
  induction k with
  | zero =>
    intro pos num
    unfold getHexCharAux
    simp
  | succ k ih =>
    intro pos num
    by_cases hlt : pos < buf.length
    · have hgd : Lexer.next_char ⟨buf, pos, buf.length⟩ 0 = buf[pos] := by
        simp only [Lexer.next_char, Nat.add_zero]
        exact List.getD_eq_getElem buf 0 hlt
      unfold getHexCharAux
      rw [if_pos hlt, hgd, List.drop_eq_getElem_cons hlt]
      by_cases hx : get_hex_num buf[pos] < 16
      · rw [if_pos hx, List.takeWhile_cons_of_pos (by simp [hexB, hx]),
          List.take_succ_cons, ih (pos + 1) (16 * num + get_hex_num buf[pos])]
        simp only [List.foldl_cons, List.length_cons, hexStep, Prod.mk.injEq, Lexer.mk.injEq,
          true_and, and_true]
        omega
      · rw [if_neg hx, List.takeWhile_cons_of_neg (by simp [hexB, hx])]
        simp
    · have hnil : buf.drop pos = [] := List.drop_eq_nil_of_le (by omega)
      unfold getHexCharAux
      rw [if_neg hlt, hnil]
      simp

theorem get_hex_char_spec (st : Lexer) (hl : st.len = st.buf.length) :
    get_hex_char st =
      (⟨st.buf, st.pos + (((st.buf.drop st.pos).takeWhile hexB).take 3).length, st.len⟩,
       (((st.buf.drop st.pos).takeWhile hexB).take 3).foldl hexStep 0) := by
  obtain ⟨buf, pos, len⟩ := st
  dsimp only at hl ⊢
  subst hl
  exact getHexCharAux_spec buf 3 pos 0

/-- C5 as stated is refuted at concrete inputs: `PContext::if_change` on an
empty conditional stack runs `last_mut().unwrap()` and panics, and
`Lexer::get_escape` on the byte q (0x71, whose ECHARS entry is Kind::NON)
reaches `unreachable!()` and panics; neither returns a value. -/
theorem claim_C5_cex :
    PContext.if_change ⟨[], []⟩ IfState.Eval = none ∧ get_escape ⟨[113], 0, 1⟩ = none :=
  ⟨rfl, by decide⟩

/-- C5 (amended): the engine signals failure through boolean results except
in exactly two places, which panic: `if_change` returns normally if and only
if the conditional stack is non-empty, and `get_escape` returns a value if
and only if the input is exhausted (yielding 0) or the byte following the
backslash has an ECHARS entry other than Kind::NON; all other decoder
operations (`get_oct_char`, `get_hex_char`, `get_universal_short`,
`get_universal_long`) and stack operations (`add_if`, `rm_if`, `if_state`)
are total functions of the model. -/
theorem claim_C5_no_panic :
    (∀ (ctx : PContext) (s : IfState),
      (ctx.if_change s).isSome = !ctx.if_stack.isEmpty)
    ∧ (∀ st : Lexer, (get_escape st).isSome =
        (!decide (st.pos < st.len) || !decide (echars (st.next_char 0) = Kind.NON))) := by
  constructor
  · intro ctx s
    rcases ctx with ⟨ms, stack⟩
    cases stack <;> rfl
  · intro st
    by_cases hp : st.pos < st.len
    · unfold get_escape
      rw [if_pos hp]
      split <;> rename_i heq <;> simp [hp, heq]
    · unfold get_escape
      rw [if_neg hp]
      simp [hp]

/-- C7 as stated is refuted at a concrete input: decoding the escape
`\1234` (bytes "1234") consumes all four octal digits, ending at position 4
with value 0o1234 = 668, whereas the claim requires at most three digits
consumed (position 3) and value 0o123 = 83. -/
theorem claim_C7_cex :
    get_escape ⟨[49, 50, 51, 52], 0, 4⟩ = some (⟨[49, 50, 51, 52], 4, 4⟩, 668) ∧
      ¬ get_escape ⟨[49, 50, 51, 52], 0, 4⟩ = some (⟨[49, 50, 51, 52], 3, 4⟩, 83) := by
  exact ⟨by decide, by decide⟩

/-- C7 (amended): for every octal escape (a backslash followed by a digit
0-7), the decoder consumes the leading digit and then every immediately
following octal digit — the loop in `get_oct_char` has no three-digit cap —
and returns the base-8 accumulation of all consumed digits (mod 2^32). -/
theorem claim_C7_octal_run (st : Lexer) (hl : st.len = st.buf.length)
    (hp : st.pos < st.len) (hc : 48 ≤ st.next_char 0 ∧ st.next_char 0 ≤ 55) :
    get_escape st = some
      (⟨st.buf, st.pos + 1 + ((st.buf.drop (st.pos + 1)).takeWhile octB).length, st.len⟩,
       ((st.buf.drop (st.pos + 1)).takeWhile octB).foldl octStep (st.next_char 0 - 48)) := by
  have hech : echars (st.next_char 0) = Kind.OCT := by
    unfold echars
    rw [if_neg (by omega), if_pos hc]
  unfold get_escape
  rw [if_pos hp]
  split <;> rename_i heq <;> rw [hech] at heq <;> cases heq
  rw [get_oct_char_spec { st with pos := st.pos + 1 } (st.next_char 0 - 48) hl]

/-- Witness for C7 (amended) at the concrete escape `\57`: both digits are
consumed and the value is 0o57 = 47. -/
theorem claim_C7_witness :
    get_escape ⟨[53, 55], 0, 2⟩ = some (⟨[53, 55], 2, 2⟩, 47) := by
  rw [claim_C7_octal_run ⟨[53, 55], 0, 2⟩ rfl (by decide) (by decide)]
  decide

/-- C8 as stated is refuted at a concrete input: decoding `\uab` with only
two bytes after the u, `get_universal_short` finds fewer than 4 remaining
bytes, consumes nothing (position stays 1) and yields 0 — not the partial
value 0xab = 171 at position 3 the claim requires. -/
theorem claim_C8_cex :
    get_escape ⟨[117, 97, 98], 0, 3⟩ = some (⟨[117, 97, 98], 1, 3⟩, 0) ∧
      ¬ get_escape ⟨[117, 97, 98], 0, 3⟩ = some (⟨[117, 97, 98], 3, 3⟩, 171) := by
  exact ⟨by decide, by decide⟩

/-- C8 (amended): only the `\x` decoder is lenient about truncation: it
consumes up to three hex digits, stopping early at end of input or a
non-hex byte, and yields the partial accumulated value. The fixed-width
`\u` and `\U` decoders are all-or-nothing: with fewer than 4 (resp. 8)
bytes remaining they consume nothing and yield 0, and otherwise they
consume exactly 4 (resp. 8) bytes. -/
theorem claim_C8_truncation :
    (∀ st : Lexer, st.len = st.buf.length →
      get_hex_char st =
        (⟨st.buf, st.pos + (((st.buf.drop st.pos).takeWhile hexB).take 3).length, st.len⟩,
         (((st.buf.drop st.pos).takeWhile hexB).take 3).foldl hexStep 0))
    ∧ (∀ st : Lexer, st.len - st.pos < 4 → get_universal_short st = (st, 0))
    ∧ (∀ st : Lexer, 4 ≤ st.len - st.pos →
        get_universal_short st = ({ st with pos := st.pos + 4 },
          0x1000 * get_hex_num (st.next_char 0) + 0x100 * get_hex_num (st.next_char 1)
            + 0x10 * get_hex_num (st.next_char 2) + get_hex_num (st.next_char 3)))
    ∧ (∀ st : Lexer, st.len - st.pos < 8 → get_universal_long st = (st, 0))
    ∧ (∀ st : Lexer, 8 ≤ st.len - st.pos →
        get_universal_long st = ({ st with pos := st.pos + 8 },
          0x10000000 * get_hex_num (st.next_char 0) + 0x1000000 * get_hex_num (st.next_char 1)
            + 0x100000 * get_hex_num (st.next_char 2) + 0x10000 * get_hex_num (st.next_char 3)
            + 0x1000 * get_hex_num (st.next_char 4) + 0x100 * get_hex_num (st.next_char 5)
            + 0x10 * get_hex_num (st.next_char 6) + get_hex_num (st.next_char 7))) := by
  refine ⟨fun st hl => get_hex_char_spec st hl, ?_, ?_, ?_, ?_⟩
  · intro st h
    simp only [get_universal_short]
    rw [if_neg (by omega)]
  · intro st h
    simp only [get_universal_short]
    rw [if_pos h]
  · intro st h
    simp only [get_universal_long]
    rw [if_neg (by omega)]
  · intro st h
    simp only [get_universal_long]
    rw [if_pos h]

/-- Witness for C8 (amended): `\u` with 2 remaining bytes consumes nothing,
while `\x` over the same 2 hex bytes consumes both and yields 0xab. -/
theorem claim_C8_witness :
    get_universal_short ⟨[97, 98], 0, 2⟩ = (⟨[97, 98], 0, 2⟩, 0) ∧
      get_hex_char ⟨[97, 98], 0, 2⟩ = (⟨[97, 98], 2, 2⟩, 171) := by
  constructor
  · exact claim_C8_truncation.2.1 ⟨[97, 98], 0, 2⟩ (by decide)
  · rw [claim_C8_truncation.1 ⟨[97, 98], 0, 2⟩ rfl]
    decide

/-- C9: for every single-byte standard escape — backslash followed by n, t,
backslash, single quote, double quote, a, b, f, r or v — `get_escape`
consumes exactly that one byte and returns the fixed code 0x0A, 0x09, 0x5C,
0x27, 0x22, 0x07, 0x08, 0x0C, 0x0D or 0x0B respectively. -/
theorem claim_C9_standard_escapes (st : Lexer) (hp : st.pos < st.len) :
    (st.next_char 0 = 110 → get_escape st = some ({ st with pos := st.pos + 1 }, 0x0A))
    ∧ (st.next_char 0 = 116 → get_escape st = some ({ st with pos := st.pos + 1 }, 0x09))
    ∧ (st.next_char 0 = 92 → get_escape st = some ({ st with pos := st.pos + 1 }, 0x5C))
    ∧ (st.next_char 0 = 39 → get_escape st = some ({ st with pos := st.pos + 1 }, 0x27))
    ∧ (st.next_char 0 = 34 → get_escape st = some ({ st with pos := st.pos + 1 }, 0x22))
    ∧ (st.next_char 0 = 97 → get_escape st = some ({ st with pos := st.pos + 1 }, 0x07))
    ∧ (st.next_char 0 = 98 → get_escape st = some ({ st with pos := st.pos + 1 }, 0x08))
    ∧ (st.next_char 0 = 102 → get_escape st = some ({ st with pos := st.pos + 1 }, 0x0C))
    ∧ (st.next_char 0 = 114 → get_escape st = some ({ st with pos := st.pos + 1 }, 0x0D))
    ∧ (st.next_char 0 = 118 → get_escape st = some ({ st with pos := st.pos + 1 }, 0x0B)) := by
  refine ⟨?_, ?_, ?_, ?_, ?_, ?_, ?_, ?_, ?_, ?_⟩ <;>
    (intro hb; unfold get_escape; rw [if_pos hp, hb]; rfl)

/-- Witness for C9 at the concrete escape `\n`. -/
theorem claim_C9_witness :
    get_escape ⟨[110], 0, 1⟩ = some (⟨[110], 1, 1⟩, 0x0A) :=
  (claim_C9_standard_escapes ⟨[110], 0, 1⟩ (by decide)).1 rfl

end RustCppParser
